import Mathlib

/-!
Verification development for the ImmigrationIQ backend.

The Python sources are shallowly embedded below:
- `backend/services/document_processor.py` — text cleaning and chunking
  (`_clean_uscis_text`, `load_and_chunk`);
- `backend/services/vector_store.py` — lazy vector-store lifecycle and
  MMR similarity search with optional form-number filtering
  (`_get_vectorstore`, `load_index`, `get_retriever`, `similarity_search`);
- `backend/api/classify.py` — tenacity retry wrapper and the `/classify/`
  endpoint error mapping (`run_classification_chain`, `classify_situation`);
- `backend/models/immigration.py` — pydantic validation of
  `ImmigrationAnalysis`;
- `backend/api/chat_v2.py` — in-memory session store and chat endpoints
  (`get_session_history`, `chat_v2`, `get_history`, `clear_session`).

Texts are modelled as `List Char`, machine floats used only for the
`confidence` bound as `Rat`, embeddings as `List Int` (only relative order
of similarity scores matters for the claims at hand).
-/

/-! ### Text cleaning (`_clean_uscis_text`) -/

/-- Python `str.strip()` whitespace class (ASCII part). -/
def pySpace (c : Char) : Bool :=
  c = ' ' || c = '\t' || c = '\n' || c = '\r' || c = '\x0b' || c = '\x0c'

/-- Worker for `re.sub(r'\n\x7b3,\x7d', '\n\n', text)`: `n` counts newlines read
but not yet emitted; a maximal run of `k` newlines is emitted as
`min k 2` newlines, which collapses runs of three or more to exactly two
and leaves shorter runs unchanged. -/
def collapseGo : Nat → List Char → List Char
  | n, [] => List.replicate (min n 2) '\n'
  | n, c :: cs =>
    if c = '\n' then collapseGo (n + 1) cs
    else List.replicate (min n 2) '\n' ++ c :: collapseGo 0 cs

/-- First regex pass of `_clean_uscis_text`: collapse runs of 3+ newlines. -/
def collapseNL (l : List Char) : List Char := collapseGo 0 l

def isUpperAZ (c : Char) : Bool := 'A' ≤ c && c ≤ 'Z'

def isDigit09 (c : Char) : Bool := '0' ≤ c && c ≤ '9'

/-- Match a literal string at the head of the input, returning the rest. -/
def matchLit : List Char → List Char → Option (List Char)
  | [], l => some l
  | _ :: _, [] => none
  | p :: ps, c :: cs => if c = p then matchLit ps cs else none

/-- Match exactly two digits (regex `\d\x7b2\x7d`) at the head of the input. -/
def matchD2 : List Char → Option (List Char)
  | a :: b :: rest => if isDigit09 a && isDigit09 b then some rest else none
  | _ => none

/-- Match one or more digits greedily (regex `\d+`) at the head of the input. -/
def matchDigits (l : List Char) : Option (List Char) :=
  if (l.takeWhile isDigit09).isEmpty then none else some (l.dropWhile isDigit09)

/-- Match a single character of a class (regex `[...]`) at the head of the
input. -/
def matchCls (p : Char → Bool) : List Char → Option (List Char)
  | [] => none
  | c :: cs => if p c then some cs else none

/-- Match the running-header regex
`Form [A-Z]-\d+ Instructions \(\d\x7b2\x7d/\d\x7b2\x7d/\d\x7b2\x7d\)`
at the head of the input, returning the remaining text after the match. -/
def matchHeader (l : List Char) : Option (List Char) :=
  (matchLit "Form ".data l).bind fun l1 =>
  (matchCls isUpperAZ l1).bind fun l2 =>
  (matchLit "-".data l2).bind fun l3 =>
  (matchDigits l3).bind fun l4 =>
  (matchLit " Instructions (".data l4).bind fun l5 =>
  (matchD2 l5).bind fun l6 =>
  (matchLit "/".data l6).bind fun l7 =>
  (matchD2 l7).bind fun l8 =>
  (matchLit "/".data l8).bind fun l9 =>
  (matchD2 l9).bind fun l10 =>
  matchLit ")".data l10

/-- Is a character distinct from the newline character? -/
def notNL (c : Char) : Bool := c != '\n'

/-- Does the text contain a run of three or more consecutive newlines? -/
def hasTriple : List Char → Bool
  | a :: b :: c :: rest =>
    (a = '\n' && b = '\n' && c = '\n') || hasTriple (b :: c :: rest)
  | _ => false

/-- Does the running-header pattern match anywhere in the text? -/
def hasHeader : List Char → Bool
  | [] => false
  | c :: cs => (matchHeader (c :: cs)).isSome || hasHeader cs

/-- Fueled scan of `re.sub(header, '', text)`: at each position, if the
header matches, drop the match and continue after it; otherwise keep the
character. The fuel only serves termination; `fuel ≥ l.length` suffices
since a match always consumes at least one character. -/
def removeHeaderFuel : Nat → List Char → List Char
  | 0, l => l
  | _, [] => []
  | fuel + 1, c :: cs =>
    match matchHeader (c :: cs) with
    | some rest => removeHeaderFuel fuel rest
    | none => c :: removeHeaderFuel fuel cs

/-- Second regex pass of `_clean_uscis_text`: delete every occurrence of
the running-header pattern, scanning left to right without rescanning
replaced text (the semantics of `re.sub` with an empty replacement). -/
def removeHeader (l : List Char) : List Char := removeHeaderFuel l.length l

/-- Python `str.lstrip()` (whitespace default). -/
def lstrip (l : List Char) : List Char := l.dropWhile pySpace

/-- Python `str.rstrip()` (whitespace default). -/
def rstrip (l : List Char) : List Char := (l.reverse.dropWhile pySpace).reverse

/-- Python `str.strip()` (whitespace default). -/
def pyStrip (l : List Char) : List Char := rstrip (lstrip l)

/-- `USCISDocumentProcessor._clean_uscis_text`: collapse newline runs,
strip running headers, then strip surrounding whitespace. -/
def cleanUSCIS (l : List Char) : List Char := pyStrip (removeHeader (collapseNL l))

/-! ### Chunking (`load_and_chunk`) -/

/-- One page as produced by `PyPDFLoader.load()`: its extracted text and the
0-based `page` metadata entry. -/
structure Page where
  content : List Char
  pageIndex : Nat
deriving DecidableEq

structure ChunkMeta where
  form_number : String
  page : Nat
  source : String
  pdf_path : String
deriving DecidableEq

/-- A langchain `Document` as produced by `create_documents`. -/
structure Chunk where
  page_content : List Char
  metadata : ChunkMeta
deriving DecidableEq

/-- The citation string `f"USCIS Form \x7bform_number\x7d Instructions, Page \x7b...\x7d"`. -/
def sourceLabel (formNumber : String) (pageNum : Nat) : String :=
  "USCIS Form " ++ formNumber ++ " Instructions, Page " ++ toString pageNum

/-- Metadata attached to every chunk of a page by `load_and_chunk`. -/
def mkChunkFor (pdfPath formNumber : String) (page : Page) (t : List Char) : Chunk :=
  { page_content := t
    metadata :=
      { form_number := formNumber
        page := page.pageIndex + 1
        source := sourceLabel formNumber (page.pageIndex + 1)
        pdf_path := pdfPath } }

/-- `USCISDocumentProcessor.load_and_chunk`, with the
`RecursiveCharacterTextSplitter.create_documents` call abstracted as the
`splitter` parameter (the claims below hold for every splitter): each page
is cleaned; pages whose stripped cleaned text is shorter than 50
characters are skipped; the rest are split and tagged with metadata. -/
def loadAndChunk (splitter : List Char → List (List Char))
    (pdfPath formNumber : String) : List Page → List Chunk
  | [] => []
  | page :: rest =>
    (if (pyStrip (cleanUSCIS page.content)).length < 50 then []
     else (splitter (cleanUSCIS page.content)).map (mkChunkFor pdfPath formNumber page))
      ++ loadAndChunk splitter pdfPath formNumber rest

/-- A concrete instance of the splitter parameter: the degenerate splitter
returning the whole text as one chunk (which is also what the real splitter
does on any text no longer than its 800-character chunk size). -/
def oneChunkSplitter (l : List Char) : List (List Char) := [l]

/-- The one-page document of end-to-end scenario A. -/
def scenarioAText : String :=
  "Form I-485 Instructions (01/01/24)\n\nFile this form to apply for a green card."

/-- Input showing that header removal can merge two newline runs into a
longer one that only a second cleaning pass collapses. -/
def headerMergeText : String := "a\n\nForm I-1 Instructions (01/01/24)\n\nb"

/-- A header-free sample input for the idempotence witness. -/
def idemSampleText : String := "  Hello\n\n\n\n  World  "

/-! ### Vector store (`vector_store.py`) -/

/-- One indexed chunk with its embedding, as held by the Chroma collection. -/
structure IndexedDoc where
  text : String
  form_number : String
  embedding : List Int
deriving DecidableEq

/-- Dot-product similarity (embeddings are unit-normalized in the source, so
cosine similarity is a dot product; only relative order matters here). -/
def dot : List Int → List Int → Int
  | x :: xs, y :: ys => x * y + dot xs ys
  | _, _ => 0

/-- First element attaining the maximal score (ties broken towards the
front of the list). -/
def argmaxBy {α : Type} (score : α → Int) : List α → Option α
  | [] => none
  | d :: ds =>
    match argmaxBy score ds with
    | none => some d
    | some m => if score d < score m then some m else some d

/-- Top `n` elements by score, best first (selection by repeated argmax). -/
def takeTopBy {α : Type} [DecidableEq α] (score : α → Int) : Nat → List α → List α
  | 0, _ => []
  | _, [] => []
  | n + 1, ds =>
    match argmaxBy score ds with
    | none => []
    | some m => m :: takeTopBy score n (ds.erase m)

/-- Maximal similarity of `d` to any already-selected document (0 when none
is selected yet). -/
def maxSimTo (d : IndexedDoc) : List IndexedDoc → Int
  | [] => 0
  | s :: rest => max (dot d.embedding s.embedding) (maxSimTo d rest)

/-- Greedy maximal-marginal-relevance selection with λ = 1/2: iteratively
pick the candidate maximizing `relevance − max-similarity-to-selected`
(the λ = 1/2 objective scaled by 2, which preserves the argmax). -/
def mmrSelect (q : List Int) : Nat → List IndexedDoc → List IndexedDoc → List IndexedDoc
  | 0, _, _ => []
  | k + 1, selected, cands =>
    match argmaxBy (fun d => dot q d.embedding - maxSimTo d selected) cands with
    | none => []
    | some m => m :: mmrSelect q k (selected ++ [m]) (cands.erase m)

/-- The metadata filter built by `get_retriever`: `if form_filter:` is
Python truthiness, so `None` and the empty string both mean "no filter";
a nonempty filter keeps exactly the documents whose `form_number` equals
it. -/
def passTruthyFilter (ff : Option String) (d : IndexedDoc) : Bool :=
  match ff with
  | none => true
  | some f => if f = "" then true else decide (d.form_number = f)

/-- `VectorStoreManager.similarity_search` via the MMR retriever built by
`get_retriever`: restrict to the (truthily) filtered documents, embed the
query, pool the `fetch_k = 20` most similar candidates (the langchain MMR
default), then MMR-select `k` of them. -/
def similaritySearchM (docs : List IndexedDoc) (embed : String → List Int)
    (query : String) (k : Nat) (ff : Option String) : List IndexedDoc :=
  let filtered := docs.filter (passTruthyFilter ff)
  let q := embed query
  mmrSelect q k [] (takeTopBy (fun d => dot q d.embedding) 20 filtered)

/-- The handle returned by constructing `langchain_chroma.Chroma(...)`. -/
structure ChromaHandle where
  docs : List IndexedDoc
deriving DecidableEq

/-- Contents of the configured persist directory: `none` when the location
does not exist on disk. -/
structure FSState where
  persisted : Option (List IndexedDoc)
deriving DecidableEq

/-- The mutable lazy-initialization state of `VectorStoreManager`
(`self._vectorstore`). -/
structure Manager where
  vectorstore : Option ChromaHandle
deriving DecidableEq

/-- Possible outcomes of `load_index` as the specification describes them.
The `indexNotFound` alternative exists only to state the spec's claimed
failure mode; the source has no such error and no failure path. -/
inductive LoadResult where
  | ok (h : ChromaHandle)
  | indexNotFound
deriving DecidableEq

/-- Constructing `Chroma(persist_directory=..., ...)`: attaches to the
collection stored at the persist directory, creating an empty one when the
location does not exist; the constructor does not fail on a missing
location. -/
def chromaConstruct (fs : FSState) : ChromaHandle :=
  { docs := fs.persisted.getD [] }

/-- `VectorStoreManager._get_vectorstore`: lazily construct and cache the
Chroma handle. -/
def getVectorstore (m : Manager) (fs : FSState) : Manager × ChromaHandle :=
  match m.vectorstore with
  | some v => (m, v)
  | none =>
    let v := chromaConstruct fs
    ({ vectorstore := some v }, v)

/-- `VectorStoreManager.load_index`: the body is exactly
`return self._get_vectorstore()` — there is no existence or
embedding-dimension check and no raised error. -/
def loadIndex (m : Manager) (fs : FSState) : Manager × LoadResult :=
  let p := getVectorstore m fs
  (p.1, LoadResult.ok p.2)

/-- Sample indexed chunk of form I-485. -/
def doc485 : IndexedDoc := { text := "i485 chunk", form_number := "I-485", embedding := [10] }

/-- Sample indexed chunk of form I-130. -/
def doc130 : IndexedDoc := { text := "i130 chunk", form_number := "I-130", embedding := [9] }

/-- A concrete embedding function for witnesses. -/
def embedOne (_ : String) : List Int := [1]

/-! ### Structured extraction (`classify.py`, `models/immigration.py`) -/

/-- `langchain_core.exceptions.OutputParserException` as raised by
`PydanticOutputParser`: carries the raw completion text that failed to
parse. -/
structure SchemaParseError where
  raw : String
deriving DecidableEq

/-- tenacity `wait_exponential(multiplier, min, max)` evaluated after the
`attempt`-th failed attempt: `max(max(0, min), min(multiplier * 2^attempt, max))`
(the outer `max 0` is vacuous over `Nat`). -/
def waitExp (multiplier minW maxW attempt : Nat) : Nat :=
  max minW (min (multiplier * 2 ^ attempt) maxW)

/-- Trace of one tenacity-wrapped call: how many attempts ran, the waits
slept between consecutive attempts, and the final outcome. -/
structure RetryTrace (A : Type) where
  attempts : Nat
  waits : List Nat
  outcome : Except SchemaParseError A

/-- tenacity retry loop with `reraise=True`: run attempt `n`; on success
stop; on failure either re-raise (when the attempt budget is exhausted,
`stop_after_attempt`) or sleep `wait n` and retry. The first argument of
the trace counts attempts actually performed. -/
def retryFrom {A : Type} (action : Nat → Except SchemaParseError A)
    (wait : Nat → Nat) : Nat → Nat → RetryTrace A
  | _, 0 => { attempts := 0, waits := [], outcome := Except.error { raw := "" } }
  | n, 1 =>
    match action n with
    | Except.ok a => { attempts := 1, waits := [], outcome := Except.ok a }
    | Except.error e => { attempts := 1, waits := [], outcome := Except.error e }
  | n, rem + 2 =>
    match action n with
    | Except.ok a => { attempts := 1, waits := [], outcome := Except.ok a }
    | Except.error _ =>
      let r := retryFrom action wait (n + 1) (rem + 1)
      { attempts := r.attempts + 1, waits := wait n :: r.waits, outcome := r.outcome }

/-- `run_classification_chain`: the chain invocation wrapped in
`@retry(stop=stop_after_attempt(3), wait=wait_exponential(multiplier=1, min=2, max=10), reraise=True)`.
The chain is a parameter mapping the attempt number to that attempt's
parse outcome (the completion service is external). -/
def runClassificationChain {A : Type} (action : Nat → Except SchemaParseError A) :
    RetryTrace A :=
  retryFrom action (waitExp 1 2 10) 1 3

/-- The categories enumerated in the `immigration_category` field
description (prompt text only — pydantic never checks membership). -/
def enumCategories : List String :=
  ["family_based", "employment_based", "nonimmigrant", "humanitarian", "naturalization", "unknown"]

/-- The field values of `ImmigrationAnalysis` before validation, i.e. what
the raw model output provides. `confidence` is modelled as `Rat`. -/
structure RawAnalysis where
  immigration_category : String
  applicable_forms : List String
  priority_steps : List String
  estimated_timeline : String
  confidence : Rat
  needs_more_info : Bool
deriving DecidableEq

/-- The pydantic validation of `ImmigrationAnalysis`: `confidence` has
`ge=0, le=1`; `applicable_forms` and `priority_steps` have
`min_items=1, max_items=5`; `immigration_category` is a bare `str` with
no constraint, and `estimated_timeline` and `needs_more_info` are likewise
unconstrained. -/
def validAnalysis (a : RawAnalysis) : Bool :=
  decide (0 ≤ a.confidence) && decide (a.confidence ≤ 1) &&
  decide (1 ≤ a.applicable_forms.length) && decide (a.applicable_forms.length ≤ 5) &&
  decide (1 ≤ a.priority_steps.length) && decide (a.priority_steps.length ≤ 5)

/-- `PydanticOutputParser.parse` restricted to the schema check: accept the
record exactly when it satisfies the declared field constraints. -/
def parseAnalysis (a : RawAnalysis) : Option RawAnalysis :=
  if validAnalysis a then some a else none

/-- A chain whose completion never parses: every attempt raises a parse
error carrying that attempt's raw completion text. -/
def alwaysFailAction (err : Nat → SchemaParseError) :
    Nat → Except SchemaParseError RawAnalysis :=
  fun n => Except.error (err n)

/-- Result of the `/classify/` endpoint: either the structured response
(`analysis` plus the echoed situation) or an HTTP error with status and
detail. -/
inductive ClassifyReply where
  | ok (analysis : RawAnalysis) (rawSituation : String)
  | httpError (status : Nat) (detail : String)
deriving DecidableEq

/-- The prefix of the 422 detail message built by `classify_situation`. -/
def parseFailDetail : String :=
  "Could not parse LLM response after 3 retries. Try rephrasing your situation. Error: "

/-- `classify_situation`: run the retry wrapper; map a final
`OutputParserException` to HTTP 422 with the raw text in the detail, and
success to the structured response. -/
def classifySituation (action : Nat → Except SchemaParseError RawAnalysis)
    (situation : String) : ClassifyReply :=
  match (runClassificationChain action).outcome with
  | Except.ok a => ClassifyReply.ok a situation
  | Except.error e => ClassifyReply.httpError 422 (parseFailDetail ++ e.raw)

/-- A schema-valid record whose category is one of the enumerated ones. -/
def goodAnalysis : RawAnalysis :=
  { immigration_category := "family_based"
    applicable_forms := ["I-130"]
    priority_steps := ["File Form I-130 with USCIS"]
    estimated_timeline := "12-24 months"
    confidence := 1
    needs_more_info := false }

/-- A record violating only the claimed category-enum constraint. -/
def offEnumAnalysis : RawAnalysis :=
  { immigration_category := "totally_made_up_category"
    applicable_forms := ["I-130"]
    priority_steps := ["File Form I-130 with USCIS"]
    estimated_timeline := "Varies"
    confidence := 1
    needs_more_info := false }

/-! ### Conversation memory (`chat_v2.py`) -/

inductive Role where
  | human
  | assistant
deriving DecidableEq

structure Message where
  role : Role
  content : String
deriving DecidableEq

/-- The module-level `session_store` dictionary, as an association list. -/
abbrev SessionStore := List (String × List Message)

def lookupS : SessionStore → String → Option (List Message)
  | [], _ => none
  | (k, v) :: rest, sid => if k = sid then some v else lookupS rest sid

def updateS : SessionStore → String → List Message → SessionStore
  | [], _, _ => []
  | (k, v) :: rest, sid, msgs =>
    (if k = sid then (k, msgs) else (k, v)) :: updateS rest sid msgs

def removeS : SessionStore → String → SessionStore
  | [], _ => []
  | (k, v) :: rest, sid =>
    if k = sid then removeS rest sid else (k, v) :: removeS rest sid

/-- `get_session_history`: return the session's history, creating a new
empty one on first reference. -/
def getOrCreate (st : SessionStore) (sid : String) : SessionStore × List Message :=
  match lookupS st sid with
  | some h => (st, h)
  | none => (st ++ [(sid, [])], [])

/-- History of a session, or `[]` when the id is unknown. -/
def histOrEmpty (st : SessionStore) (sid : String) : List Message :=
  (lookupS st sid).getD []

/-- One completed `/chat/v2` turn. `RunnableWithMessageHistory` loads the
session history through `get_session_history`, invokes the chain on the
history plus the new input, and then appends the new human message
followed by the AI response to the history (its documented exit behavior,
also restated in the source comments of `chat_v2.py`). `llm` maps the
injected history and the current input to the completion text. -/
def chatTurn (llm : List Message → String → String) (st : SessionStore)
    (sid msg : String) : SessionStore × String :=
  let p := getOrCreate st sid
  let resp := llm p.2 msg
  (updateS p.1 sid (p.2 ++ [{ role := Role.human, content := msg },
                            { role := Role.assistant, content := resp }]), resp)

/-- Operations that mutate the session store: a completed chat turn
(`POST /chat/v2`) and clearing a session (`DELETE /chat/v2/...`). -/
inductive ChatOp where
  | turn (sid msg : String)
  | clearOp (sid : String)

def applyOp (llm : List Message → String → String) (st : SessionStore) :
    ChatOp → SessionStore
  | ChatOp.turn sid msg => (chatTurn llm st sid msg).1
  | ChatOp.clearOp sid => removeS st sid

def runOps (llm : List Message → String → String) (st : SessionStore) :
    List ChatOp → SessionStore
  | [] => st
  | op :: ops => runOps llm (applyOp llm st op) ops

/-- JSON values, enough to state the shapes returned by the history
endpoint. -/
inductive JVal where
  | s (v : String)
  | num (n : Nat)
  | arr (elems : List JVal)
  | obj (fields : List (String × JVal))

/-- Role label used by `get_history`: `"user"` for `HumanMessage`, else
`"assistant"`. -/
def roleLabel : Role → String
  | Role.human => "user"
  | Role.assistant => "assistant"

def msgToJson (m : Message) : JVal :=
  JVal.obj [("role", JVal.s (roleLabel m.role)), ("content", JVal.s m.content)]

/-- Is a key already present among the object's fields? -/
def hasKey : List (String × JVal) → String → Bool
  | [], _ => false
  | (k, _) :: rest, key => if k = key then true else hasKey rest key

/-- Insert one key/value pair with Python dict semantics: a repeated key
overwrites the earlier value in place (keeping the key's first position),
a fresh key is appended. -/
def dictInsert (fields : List (String × JVal)) (key : String) (v : JVal) :
    List (String × JVal) :=
  if hasKey fields key then
    fields.map fun p => if p.1 = key then (p.1, v) else p
  else fields ++ [(key, v)]

/-- A Python dict literal: the written pairs inserted left to right, later
occurrences of the same key overwriting earlier ones. -/
def mkDict (pairs : List (String × JVal)) : List (String × JVal) :=
  pairs.foldl (fun acc p => dictInsert acc p.1 p.2) []

/-- `GET /chat/v2/\x7bsession_id\x7d/history`: for an unknown id the handler
returns the dict literal `\x7bsession_id: session_id, "messages": []\x7d`, whose
first key is the *value* of the `session_id` variable (so when that value
is itself `"messages"`, the second entry overwrites the first and the dict
has a single field); for a known id it returns the
`"session_id"`/`"messages"`/`"total"` object. -/
def getHistoryEndpoint (st : SessionStore) (sid : String) : List (String × JVal) :=
  match lookupS st sid with
  | none => mkDict [(sid, JVal.s sid), ("messages", JVal.arr [])]
  | some msgs =>
    mkDict [("session_id", JVal.s sid),
            ("messages", JVal.arr (msgs.map msgToJson)),
            ("total", JVal.num msgs.length)]

/-! ### Lemmas: the header matcher -/

theorem matchLit_some {p : List Char} :
    ∀ {l r : List Char}, matchLit p l = some r → l = p ++ r := by
  induction p with
  | nil =>
    intro l r h
    simp only [matchLit, Option.some_inj] at h
    simp [h]
  | cons a ps ih =>
    intro l r h
    cases l with
    | nil => simp [matchLit] at h
    | cons c cs =>
      simp only [matchLit] at h
      split at h
      · next heq => subst heq; simp [ih h]
      · exact absurd h (by simp)

theorem matchLit_self : ∀ (p z : List Char), matchLit p (p ++ z) = some z := by
  intro p
  induction p with
  | nil => intro z; rfl
  | cons a ps ih => intro z; simp [matchLit, ih]

theorem matchCls_some {p : Char → Bool} :
    ∀ {l r : List Char}, matchCls p l = some r → ∃ c, l = c :: r ∧ p c = true := by
  intro l r h
  cases l with
  | nil => simp [matchCls] at h
  | cons c cs =>
    simp only [matchCls] at h
    split at h
    · next hc => injection h with h; subst h; exact ⟨c, rfl, hc⟩
    · exact absurd h (by simp)

theorem matchCls_self {p : Char → Bool} {c : Char} (hc : p c = true) (z : List Char) :
    matchCls p (c :: z) = some z := by
  simp [matchCls, hc]

theorem matchD2_some :
    ∀ {l r : List Char}, matchD2 l = some r →
      ∃ a b, l = a :: b :: r ∧ (isDigit09 a && isDigit09 b) = true := by
  intro l r h
  match l with
  | [] => simp [matchD2] at h
  | [a] => simp [matchD2] at h
  | a :: b :: rest =>
    simp only [matchD2] at h
    split at h
    · next hd => injection h with h; subst h; exact ⟨a, b, rfl, hd⟩
    · exact absurd h (by simp)

theorem matchD2_self {a b : Char} (h : (isDigit09 a && isDigit09 b) = true) (z : List Char) :
    matchD2 (a :: b :: z) = some z := by
  simp [matchD2, h]

theorem takeWhile_all (p : Char → Bool) : ∀ l : List Char, (l.takeWhile p).all p = true := by
  intro l
  induction l with
  | nil => rfl
  | cons c cs ih =>
    by_cases hc : p c = true
    · simp [List.takeWhile_cons, hc, ih]
    · simp [List.takeWhile_cons, hc]

theorem takeWhile_all_append {p : Char → Bool} :
    ∀ {ds : List Char} {c : Char} (t : List Char), ds.all p = true → p c = false →
      (ds ++ c :: t).takeWhile p = ds ∧ (ds ++ c :: t).dropWhile p = c :: t := by
  intro ds
  induction ds with
  | nil =>
    intro c t _ hc
    constructor <;> simp [List.takeWhile_cons, List.dropWhile_cons, hc]
  | cons d ds ih =>
    intro c t hall hc
    simp only [List.all_cons, Bool.and_eq_true] at hall
    obtain ⟨hd, hall⟩ := hall
    obtain ⟨h1, h2⟩ := ih t hall hc
    constructor <;> simp [List.takeWhile_cons, List.dropWhile_cons, hd, h1, h2]

theorem matchDigits_some {l r : List Char} (h : matchDigits l = some r) :
    ∃ ds, ds ≠ [] ∧ ds.all isDigit09 = true ∧ l = ds ++ r := by
  unfold matchDigits at h
  split at h
  · exact absurd h (by simp)
  · next hne =>
    injection h with h
    refine ⟨l.takeWhile isDigit09, ?_, takeWhile_all _ _, ?_⟩
    · simpa [List.isEmpty_iff] using hne
    · rw [← h]
      exact (List.takeWhile_append_dropWhile _ _).symm

theorem matchDigits_replay {ds : List Char} {c : Char} (t : List Char)
    (hall : ds.all isDigit09 = true) (hne : ds ≠ []) (hc : isDigit09 c = false) :
    matchDigits (ds ++ c :: t) = some (c :: t) := by
  obtain ⟨htw, hdw⟩ := takeWhile_all_append t hall hc
  unfold matchDigits
  rw [htw, hdw]
  simp [List.isEmpty_iff, hne]

theorem notNL_of_upper {c : Char} (h : isUpperAZ c = true) : notNL c = true := by
  rcases Decidable.em (c = '\n') with rfl | hne
  · exact absurd h (by decide)
  · simp [notNL, hne]

theorem notNL_of_digit {c : Char} (h : isDigit09 c = true) : notNL c = true := by
  rcases Decidable.em (c = '\n') with rfl | hne
  · exact absurd h (by decide)
  · simp [notNL, hne]

theorem all_notNL_of_digits {ds : List Char} (h : ds.all isDigit09 = true) :
    ds.all notNL = true := by
  rw [List.all_eq_true] at h ⊢
  intro x hx
  exact notNL_of_digit (h x hx)

theorem matchHeader_decomp {l r : List Char} (h : matchHeader l = some r) :
    ∃ w, w ≠ [] ∧ l = w ++ r ∧ w.all notNL = true ∧
      ∀ z, matchHeader (w ++ z) = some z := by
  unfold matchHeader at h
  rw [Option.bind_eq_some] at h
  obtain ⟨l1, hF, h⟩ := h
  rw [Option.bind_eq_some] at h
  obtain ⟨l2, hUp, h⟩ := h
  rw [Option.bind_eq_some] at h
  obtain ⟨l3, hDash, h⟩ := h
  rw [Option.bind_eq_some] at h
  obtain ⟨l4, hDig, h⟩ := h
  rw [Option.bind_eq_some] at h
  obtain ⟨l5, hInstr, h⟩ := h
  rw [Option.bind_eq_some] at h
  obtain ⟨l6, hD2a, h⟩ := h
  rw [Option.bind_eq_some] at h
  obtain ⟨l7, hSl1, h⟩ := h
  rw [Option.bind_eq_some] at h
  obtain ⟨l8, hD2b, h⟩ := h
  rw [Option.bind_eq_some] at h
  obtain ⟨l9, hSl2, h⟩ := h
  rw [Option.bind_eq_some] at h
  obtain ⟨l10, hD2c, hClose⟩ := h
  obtain ⟨c, el1, hc⟩ := matchCls_some hUp
  obtain ⟨ds, hdsne, hdsall, el3⟩ := matchDigits_some hDig
  obtain ⟨a1, b1, el5, hab1⟩ := matchD2_some hD2a
  obtain ⟨a2, b2, el7, hab2⟩ := matchD2_some hD2b
  obtain ⟨a3, b3, el9, hab3⟩ := matchD2_some hD2c
  have el := matchLit_some hF
  have el2 := matchLit_some hDash
  have el4 := matchLit_some hInstr
  have el6 := matchLit_some hSl1
  have el8 := matchLit_some hSl2
  have el10 := matchLit_some hClose
  refine ⟨"Form ".data ++ c :: ("-".data ++ (ds ++ (" Instructions (".data ++
    (a1 :: b1 :: ("/".data ++ (a2 :: b2 :: ("/".data ++
    (a3 :: b3 :: ")".data)))))))), by simp, ?_, ?_, ?_⟩
  · subst el10 el9 el8 el7 el6 el5 el4 el3 el2 el1 el
    simp [List.append_assoc]
  · simp only [Bool.and_eq_true] at hab1 hab2 hab3
    have hC := notNL_of_upper hc
    have hds := all_notNL_of_digits hdsall
    have ha1 := notNL_of_digit hab1.1
    have hb1 := notNL_of_digit hab1.2
    have ha2 := notNL_of_digit hab2.1
    have hb2 := notNL_of_digit hab2.2
    have ha3 := notNL_of_digit hab3.1
    have hb3 := notNL_of_digit hab3.2
    rw [List.all_append, Bool.and_eq_true]
    refine ⟨by decide, ?_⟩
    rw [List.all_cons, Bool.and_eq_true]
    refine ⟨hC, ?_⟩
    rw [List.all_append, Bool.and_eq_true]
    refine ⟨by decide, ?_⟩
    rw [List.all_append, Bool.and_eq_true]
    refine ⟨hds, ?_⟩
    rw [List.all_append, Bool.and_eq_true]
    refine ⟨by decide, ?_⟩
    rw [List.all_cons, Bool.and_eq_true]
    refine ⟨ha1, ?_⟩
    rw [List.all_cons, Bool.and_eq_true]
    refine ⟨hb1, ?_⟩
    rw [List.all_append, Bool.and_eq_true]
    refine ⟨by decide, ?_⟩
    rw [List.all_cons, Bool.and_eq_true]
    refine ⟨ha2, ?_⟩
    rw [List.all_cons, Bool.and_eq_true]
    refine ⟨hb2, ?_⟩
    rw [List.all_append, Bool.and_eq_true]
    refine ⟨by decide, ?_⟩
    rw [List.all_cons, Bool.and_eq_true]
    refine ⟨ha3, ?_⟩
    rw [List.all_cons, Bool.and_eq_true]
    exact ⟨hb3, by decide⟩
  · intro z
    have hspc : " Instructions (".data = ' ' :: "Instructions (".data := rfl
    unfold matchHeader
    rw [show ("Form ".data ++ c :: ("-".data ++ (ds ++ (" Instructions (".data ++
      (a1 :: b1 :: ("/".data ++ (a2 :: b2 :: ("/".data ++
      (a3 :: b3 :: ")".data))))))))) ++ z
      = "Form ".data ++ (c :: ("-".data ++ (ds ++ (' ' :: ("Instructions (".data ++
        (a1 :: b1 :: ("/".data ++ (a2 :: b2 :: ("/".data ++
        (a3 :: b3 :: (")".data ++ z))))))))))) by simp [hspc, List.append_assoc]]
    rw [matchLit_self, Option.some_bind]
    rw [matchCls_self hc, Option.some_bind]
    rw [matchLit_self, Option.some_bind]
    rw [matchDigits_replay _ hdsall hdsne (by decide), Option.some_bind]
    rw [show (' ' :: ("Instructions (".data ++ (a1 :: b1 :: ("/".data ++ (a2 :: b2 ::
      ("/".data ++ (a3 :: b3 :: (")".data ++ z))))))))
      = " Instructions (".data ++ (a1 :: b1 :: ("/".data ++ (a2 :: b2 ::
      ("/".data ++ (a3 :: b3 :: (")".data ++ z)))))) from rfl]
    rw [matchLit_self, Option.some_bind]
    rw [matchD2_self hab1, Option.some_bind]
    rw [matchLit_self, Option.some_bind]
    rw [matchD2_self hab2, Option.some_bind]
    rw [matchLit_self, Option.some_bind]
    rw [matchD2_self hab3, Option.some_bind]
    exact matchLit_self _ _

theorem matchHeader_append {m r : List Char} (v : List Char) (h : matchHeader m = some r) :
    matchHeader (m ++ v) = some (r ++ v) := by
  obtain ⟨w, _, hm, _, hreplay⟩ := matchHeader_decomp h
  subst hm
  rw [List.append_assoc]
  exact hreplay (r ++ v)

theorem matchHeader_nl (w : List Char) : matchHeader ('\n' :: w) = none := by
  unfold matchHeader
  rw [show "Form ".data = 'F' :: "orm ".data from rfl]
  rw [show matchLit ('F' :: "orm ".data) ('\n' :: w)
      = if '\n' = 'F' then matchLit "orm ".data w else none from rfl]
  rw [if_neg (by decide)]
  rfl

theorem hasHeader_nl_cons (w : List Char) : hasHeader ('\n' :: w) = hasHeader w := by
  simp [hasHeader, matchHeader_nl]

theorem hasHeader_replicate_nl (m : Nat) (w : List Char) :
    hasHeader (List.replicate m '\n' ++ w) = hasHeader w := by
  induction m with
  | zero => simp
  | succ k ih => rw [List.replicate_succ, List.cons_append, hasHeader_nl_cons, ih]

theorem hasHeader_cons_of {w : List Char} (c : Char) (h : hasHeader w = true) :
    hasHeader (c :: w) = true := by
  simp [hasHeader, h]

theorem hasHeader_append_left {m : List Char} (u : List Char) (h : hasHeader m = true) :
    hasHeader (u ++ m) = true := by
  induction u with
  | nil => simpa
  | cons c cs ih => exact hasHeader_cons_of c ih

theorem hasHeader_append_right {m : List Char} (v : List Char) (h : hasHeader m = true) :
    hasHeader (m ++ v) = true := by
  induction m with
  | nil => simp [hasHeader] at h
  | cons c cs ih =>
    simp only [hasHeader, Bool.or_eq_true] at h
    rcases h with h | h
    · rw [Option.isSome_iff_exists] at h
      obtain ⟨r, hr⟩ := h
      have := matchHeader_append v hr
      rw [List.cons_append]
      simp only [hasHeader, Bool.or_eq_true]
      left
      rw [List.cons_append] at this
      simp [this]
    · rw [List.cons_append]
      exact hasHeader_cons_of c (ih h)

theorem hasHeader_piece {u m v : List Char} (h : hasHeader (u ++ m ++ v) = false) :
    hasHeader m = false := by
  rcases Bool.eq_false_or_eq_true (hasHeader m) with hm | hm
  swap
  · exact hm
  · have htrue := hasHeader_append_left u (hasHeader_append_right v hm)
    rw [← List.append_assoc] at htrue
    rw [htrue] at h
    exact Bool.noConfusion h

/-! ### Lemmas: newline runs and the collapse pass -/

theorem hasTriple_cons_eq {c : Char} (hc : c ≠ '\n') :
    ∀ t : List Char, hasTriple (c :: t) = hasTriple t := by
  intro t
  match t with
  | [] => simp [hasTriple]
  | [b] => simp [hasTriple]
  | b :: d :: r => simp [hasTriple, hc]

theorem hasTriple_nl_cons {c : Char} (hc : c ≠ '\n') :
    ∀ t : List Char, hasTriple ('\n' :: c :: t) = hasTriple (c :: t) := by
  intro t
  match t with
  | [] => simp [hasTriple]
  | d :: r => simp [hasTriple, hc]

theorem hasTriple_nl_nl_cons {c : Char} (hc : c ≠ '\n') (t : List Char) :
    hasTriple ('\n' :: '\n' :: c :: t) = hasTriple (c :: t) := by
  simp [hasTriple, hc, hasTriple_nl_cons hc]

theorem hasTriple_rep_cons {m : Nat} (hm : m ≤ 2) {c : Char} (hc : c ≠ '\n')
    (t : List Char) : hasTriple (List.replicate m '\n' ++ c :: t) = hasTriple (c :: t) := by
  interval_cases m
  · simp
  · simpa using hasTriple_nl_cons hc t
  · simpa using hasTriple_nl_nl_cons hc t

theorem hasTriple_replicate_le2 {m : Nat} (hm : m ≤ 2) :
    hasTriple (List.replicate m '\n') = false := by
  interval_cases m <;> simp [hasTriple]

theorem hasTriple_collapseGo (l : List Char) : ∀ n : Nat,
    hasTriple (collapseGo n l) = false := by
  induction l with
  | nil =>
    intro n
    exact hasTriple_replicate_le2 (Nat.min_le_right n 2)
  | cons c cs ih =>
    intro n
    by_cases hc : c = '\n'
    · subst hc
      simp only [collapseGo, if_pos rfl]
      exact ih (n + 1)
    · simp only [collapseGo, if_neg hc]
      rw [hasTriple_rep_cons (Nat.min_le_right n 2) hc, hasTriple_cons_eq hc]
      exact ih 0

theorem collapseGo_id (l : List Char) : ∀ n : Nat, n ≤ 2 →
    hasTriple (List.replicate n '\n' ++ l) = false →
    collapseGo n l = List.replicate n '\n' ++ l := by
  induction l with
  | nil =>
    intro n hn _
    simp [collapseGo, Nat.min_eq_left hn]
  | cons c cs ih =>
    intro n hn h
    by_cases hc : c = '\n'
    · subst hc
      have hrep : List.replicate n '\n' ++ '\n' :: cs
          = List.replicate (n + 1) '\n' ++ cs := by
        rw [List.replicate_succ', List.append_assoc]
        rfl
      have hn1 : n + 1 ≤ 2 := by
        rcases Nat.lt_or_ge n 2 with h2 | h2
        · omega
        · have hn2 : n = 2 := le_antisymm hn h2
          subst hn2
          rw [show List.replicate 2 '\n' ++ '\n' :: cs = '\n' :: '\n' :: '\n' :: cs
              from rfl] at h
          simp [hasTriple] at h
      rw [hrep] at h
      have hstep : collapseGo n ('\n' :: cs) = collapseGo (n + 1) cs := by
        simp [collapseGo]
      rw [hstep, ih (n + 1) hn1 h, hrep]
    · simp only [collapseGo, if_neg hc]
      have hcs : hasTriple (c :: cs) = false := by
        rw [hasTriple_rep_cons hn hc] at h
        exact h
      have hcs' : hasTriple cs = false := by
        rw [← hasTriple_cons_eq hc]
        exact hcs
      rw [ih 0 (by omega) (by simpa using hcs'), Nat.min_eq_left hn]
      rfl

theorem collapseNL_id {l : List Char} (h : hasTriple l = false) : collapseNL l = l := by
  have := collapseGo_id l 0 (by omega) (by simpa using h)
  simpa [collapseNL] using this

theorem hasTriple_cons_mono (c : Char) : ∀ {m : List Char}, hasTriple m = true →
    hasTriple (c :: m) = true := by
  intro m h
  match m, h with
  | a :: b :: r, h =>
    simp only [hasTriple, Bool.or_eq_true]
    right
    exact h
  | [], h => simp [hasTriple] at h
  | [a], h => simp [hasTriple] at h

theorem hasTriple_append_left (u : List Char) {m : List Char} (h : hasTriple m = true) :
    hasTriple (u ++ m) = true := by
  induction u with
  | nil => simpa
  | cons c cs ih => exact hasTriple_cons_mono c ih

theorem hasTriple_append_right : ∀ (m v : List Char), hasTriple m = true →
    hasTriple (m ++ v) = true
  | a :: b :: c :: r, v, h => by
    simp only [hasTriple, Bool.or_eq_true] at h
    rcases h with h | h
    · simp [hasTriple, h]
    · have := hasTriple_append_right (b :: c :: r) v h
      simp only [List.cons_append]
      simp only [List.cons_append] at this
      simp only [hasTriple, Bool.or_eq_true]
      right
      exact this
  | [], v, h => by simp [hasTriple] at h
  | [a], v, h => by simp [hasTriple] at h
  | [a, b], v, h => by simp [hasTriple] at h

theorem hasTriple_piece {u m v : List Char} (h : hasTriple (u ++ m ++ v) = false) :
    hasTriple m = false := by
  rcases Bool.eq_false_or_eq_true (hasTriple m) with hm | hm
  swap
  · exact hm
  · have htrue := hasTriple_append_left u (hasTriple_append_right m v hm)
    rw [← List.append_assoc] at htrue
    rw [htrue] at h
    exact Bool.noConfusion h

theorem collapseGo_succ_head (l : List Char) : ∀ n : Nat,
    ∃ w, collapseGo (n + 1) l = '\n' :: w := by
  induction l with
  | nil =>
    intro n
    refine ⟨List.replicate (min n 1) '\n', ?_⟩
    have hmin : min (n + 1) 2 = min n 1 + 1 := by omega
    simp only [collapseGo]
    rw [hmin, List.replicate_succ]
  | cons c cs ih =>
    intro n
    by_cases hc : c = '\n'
    · subst hc
      simp only [collapseGo, if_pos rfl]
      exact ih (n + 1)
    · refine ⟨List.replicate (min n 1) '\n' ++ c :: collapseGo 0 cs, ?_⟩
      simp only [collapseGo, if_neg hc]
      have hmin : min (n + 1) 2 = min n 1 + 1 := by omega
      rw [hmin, List.replicate_succ]
      rfl

theorem collapseGo_nlfree_front : ∀ (cs q r : List Char), q.all notNL = true →
    collapseGo 0 cs = q ++ r → ∃ t, cs = q ++ t := by
  intro cs
  induction cs with
  | nil =>
    intro q r _ h
    have hq : q ++ r = [] := by simpa [collapseGo] using h.symm
    rcases List.append_eq_nil.mp hq with ⟨hq1, _⟩
    exact ⟨[], by simp [hq1]⟩
  | cons c cs' ih =>
    intro q r hall h
    by_cases hc : c = '\n'
    · subst hc
      obtain ⟨w, hw⟩ := collapseGo_succ_head cs' 0
      simp only [collapseGo, if_pos rfl] at h
      rw [hw] at h
      cases q with
      | nil => exact ⟨'\n' :: cs', by simp⟩
      | cons qh qt =>
        rw [List.cons_append] at h
        injection h with h1 h2
        rw [← h1] at hall
        simp [List.all_cons, notNL] at hall
    · have hcg : collapseGo 0 (c :: cs') = c :: collapseGo 0 cs' := by
        simp [collapseGo, hc]
      rw [hcg] at h
      cases q with
      | nil => exact ⟨c :: cs', by simp⟩
      | cons qh qt =>
        rw [List.cons_append] at h
        injection h with h1 h2
        subst h1
        simp only [List.all_cons, Bool.and_eq_true] at hall
        obtain ⟨t, ht⟩ := ih qt r hall.2 h2
        exact ⟨t, by rw [List.cons_append, ht]⟩

theorem hasHeader_collapseGo (l : List Char) : ∀ n : Nat,
    hasHeader (collapseGo n l) = true → hasHeader (List.replicate n '\n' ++ l) = true := by
  induction l with
  | nil =>
    intro n h
    rw [show collapseGo n [] = List.replicate (min n 2) '\n' from rfl] at h
    rw [show List.replicate (min n 2) '\n' = List.replicate (min n 2) '\n' ++ [] from
      by simp] at h
    rw [hasHeader_replicate_nl] at h
    simp [hasHeader] at h
  | cons c cs ih =>
    intro n h
    by_cases hc : c = '\n'
    · subst hc
      simp only [collapseGo, if_pos rfl] at h
      have hres := ih (n + 1) h
      rw [List.replicate_succ', List.append_assoc] at hres
      simpa using hres
    · simp only [collapseGo, if_neg hc] at h
      rw [hasHeader_replicate_nl] at h
      rw [hasHeader_replicate_nl]
      simp only [hasHeader, Bool.or_eq_true] at h ⊢
      rcases h with h | h
      · rw [Option.isSome_iff_exists] at h
        obtain ⟨r, hr⟩ := h
        obtain ⟨w, hwne, hweq, hwall, hreplay⟩ := matchHeader_decomp hr
        cases w with
        | nil => exact absurd rfl hwne
        | cons wh wt =>
          rw [List.cons_append] at hweq
          injection hweq with h1 h2
          subst h1
          simp only [List.all_cons, Bool.and_eq_true] at hwall
          obtain ⟨t, ht⟩ := collapseGo_nlfree_front cs wt r hwall.2 h2
          left
          rw [ht, Option.isSome_iff_exists]
          refine ⟨t, ?_⟩
          have hrep := hreplay t
          rw [List.cons_append] at hrep
          exact hrep
      · right
        have hres := ih 0 h
        simpa using hres

theorem hasHeader_collapseNL {l : List Char} (h : hasHeader l = false) :
    hasHeader (collapseNL l) = false := by
  rcases Bool.eq_false_or_eq_true (hasHeader (collapseNL l)) with h2 | h2
  · have h3 := hasHeader_collapseGo l 0 h2
    simp only [List.replicate_zero, List.nil_append] at h3
    rw [h] at h3
    exact Bool.noConfusion h3
  · exact h2

/-! ### Lemmas: header removal and whitespace stripping -/

theorem removeHeaderFuel_id : ∀ (fuel : Nat) (l : List Char), hasHeader l = false →
    removeHeaderFuel fuel l = l := by
  intro fuel
  induction fuel with
  | zero => intro l _; cases l <;> rfl
  | succ f ih =>
    intro l h
    cases l with
    | nil => rfl
    | cons c cs =>
      simp only [hasHeader, Bool.or_eq_false_iff] at h
      obtain ⟨h1, h2⟩ := h
      have hm : matchHeader (c :: cs) = none := by
        cases hmc : matchHeader (c :: cs)
        · rfl
        · rw [hmc] at h1
          simp at h1
      simp only [removeHeaderFuel, hm]
      rw [ih cs h2]

theorem removeHeader_id {l : List Char} (h : hasHeader l = false) : removeHeader l = l :=
  removeHeaderFuel_id _ _ h

theorem dropWhile_dropWhile (p : Char → Bool) (l : List Char) :
    (l.dropWhile p).dropWhile p = l.dropWhile p := by
  induction l with
  | nil => rfl
  | cons c cs ih =>
    by_cases hc : p c = true
    · simp [List.dropWhile_cons, hc, ih]
    · simp [List.dropWhile_cons, hc]

theorem lstrip_rstrip_comm : ∀ l : List Char, lstrip (rstrip l) = rstrip (lstrip l) := by
  intro l
  induction l with
  | nil => rfl
  | cons c t ih =>
    by_cases hc : pySpace c = true
    · have hl : lstrip (c :: t) = lstrip t := by
        simp [lstrip, List.dropWhile_cons, hc]
      rcases hnil : t.reverse.dropWhile pySpace with _ | ⟨zh, zt⟩
      · have h1 : List.dropWhile pySpace (t.reverse ++ [c]) = [] := by
          rw [List.dropWhile_append, hnil]
          simp [hc]
        have h2 : rstrip (c :: t) = [] := by
          unfold rstrip
          rw [List.reverse_cons, h1, List.reverse_nil]
        have h3 : rstrip t = [] := by
          unfold rstrip
          rw [hnil, List.reverse_nil]
        rw [hl, ← ih, h2, h3]
      · have h1 : List.dropWhile pySpace (t.reverse ++ [c]) = (zh :: zt) ++ [c] := by
          rw [List.dropWhile_append, hnil]
          simp
        have h2 : rstrip (c :: t) = c :: (zh :: zt).reverse := by
          unfold rstrip
          rw [List.reverse_cons, h1, List.reverse_append]
          rfl
        have h3 : rstrip t = (zh :: zt).reverse := by
          unfold rstrip
          rw [hnil]
        rw [hl, ← ih, h2, h3]
        simp [lstrip, List.dropWhile_cons, hc]
    · have hl : lstrip (c :: t) = c :: t := by
        simp [lstrip, List.dropWhile_cons, hc]
      rcases hnil : t.reverse.dropWhile pySpace with _ | ⟨zh, zt⟩
      · have h1 : List.dropWhile pySpace (t.reverse ++ [c]) = [c] := by
          rw [List.dropWhile_append, hnil]
          simp [hc]
        have h2 : rstrip (c :: t) = [c] := by
          unfold rstrip
          rw [List.reverse_cons, h1]
          rfl
        rw [hl, h2]
        simp [lstrip, List.dropWhile_cons, hc]
      · have h1 : List.dropWhile pySpace (t.reverse ++ [c]) = (zh :: zt) ++ [c] := by
          rw [List.dropWhile_append, hnil]
          simp
        have h2 : rstrip (c :: t) = c :: (zh :: zt).reverse := by
          unfold rstrip
          rw [List.reverse_cons, h1, List.reverse_append]
          rfl
        rw [hl, h2]
        simp [lstrip, List.dropWhile_cons, hc]

theorem rstrip_rstrip (l : List Char) : rstrip (rstrip l) = rstrip l := by
  simp [rstrip, List.reverse_reverse, dropWhile_dropWhile]

theorem lstrip_lstrip (l : List Char) : lstrip (lstrip l) = lstrip l :=
  dropWhile_dropWhile pySpace l

theorem pyStrip_pyStrip (l : List Char) : pyStrip (pyStrip l) = pyStrip l := by
  unfold pyStrip
  rw [lstrip_rstrip_comm (lstrip l), lstrip_lstrip, rstrip_rstrip]

theorem pyStrip_piece (l : List Char) : ∃ u v, l = u ++ pyStrip l ++ v := by
  refine ⟨l.takeWhile pySpace, ((lstrip l).reverse.takeWhile pySpace).reverse, ?_⟩
  have h1 : l.takeWhile pySpace ++ lstrip l = l := List.takeWhile_append_dropWhile _ _
  have h2 : lstrip l = pyStrip l ++ ((lstrip l).reverse.takeWhile pySpace).reverse := by
    unfold pyStrip rstrip
    conv_lhs => rw [← List.reverse_reverse (lstrip l),
      ← List.takeWhile_append_dropWhile pySpace (lstrip l).reverse,
      List.reverse_append]
  rw [List.append_assoc, ← h2, h1]

/-- C4 (amended): the cleaning step is idempotent on every input containing
no occurrence of the running-header pattern — on such inputs the collapse
pass, the (vacuous) header removal and the strip are each stable under a
second application.  (As stated over all inputs the claim is false: see the
counterexample, where removing a header merges two newline runs into a run
of four that only a second pass collapses.) -/
theorem clean_idempotent_of_headerFree (t : List Char) (h : hasHeader t = false) :
    cleanUSCIS (cleanUSCIS t) = cleanUSCIS t := by
  have hx : hasHeader (collapseNL t) = false := hasHeader_collapseNL h
  have h1 : cleanUSCIS t = pyStrip (collapseNL t) := by
    unfold cleanUSCIS
    rw [removeHeader_id hx]
  obtain ⟨u, v, hpiece⟩ := pyStrip_piece (collapseNL t)
  have htx : hasTriple (collapseNL t) = false := hasTriple_collapseGo t 0
  have hty : hasTriple (pyStrip (collapseNL t)) = false := by
    rw [hpiece] at htx
    exact hasTriple_piece htx
  have hhy : hasHeader (pyStrip (collapseNL t)) = false := by
    rw [hpiece] at hx
    exact hasHeader_piece hx
  rw [h1]
  unfold cleanUSCIS
  rw [show collapseNL (pyStrip (collapseNL t)) = pyStrip (collapseNL t) from
    collapseNL_id hty]
  rw [removeHeader_id hhy]
  exact pyStrip_pyStrip (collapseNL t)

/-- Witness for C4: the amended idempotence theorem applied at a concrete
header-free input. -/
theorem clean_idempotent_of_headerFree_witness :
    hasHeader idemSampleText.data = false
    ∧ cleanUSCIS (cleanUSCIS idemSampleText.data) = cleanUSCIS idemSampleText.data :=
  ⟨by decide, clean_idempotent_of_headerFree idemSampleText.data (by decide)⟩

/-- C4 counterexample: cleaning is not idempotent as claimed.  On
`"a\n\nForm I-1 Instructions (01/01/24)\n\nb"` one cleaning pass strips the
header and leaves `"a\n\n\n\nb"` (the two surrounding newline runs merge
into a run of four, created only after the collapse pass already ran), and
a second pass collapses it to `"a\n\nb"`. -/
theorem clean_not_idempotent_on_header_page :
    cleanUSCIS (cleanUSCIS headerMergeText.data) ≠ cleanUSCIS headerMergeText.data
    ∧ cleanUSCIS headerMergeText.data = "a\n\n\n\nb".data
    ∧ cleanUSCIS (cleanUSCIS headerMergeText.data) = "a\n\nb".data := by
  refine ⟨by decide, by decide, by decide⟩

/-! ### Claim theorems: chunking -/

/-- C1 (amended): ingesting the single one-page scenario-A document with
form number I-485 produces exactly zero chunks — whatever the splitter —
because the header strip leaves a cleaned page text of 41 characters,
below the 50-character minimum, so `load_and_chunk` drops the page before
splitting.  The source label a page-1 chunk would have carried is the one
the original claim states. -/
theorem scenarioA_no_chunks (splitter : List Char → List (List Char)) (pdfPath : String) :
    loadAndChunk splitter pdfPath "I-485"
      [{ content := scenarioAText.data, pageIndex := 0 }] = []
    ∧ (pyStrip (cleanUSCIS scenarioAText.data)).length = 41
    ∧ sourceLabel "I-485" 1 = "USCIS Form I-485 Instructions, Page 1" := by
  refine ⟨?_, by decide, rfl⟩
  simp only [loadAndChunk]
  rw [if_pos (by decide)]
  rfl

/-- C1 counterexample: with a concrete splitter, ingesting the scenario-A
document yields zero chunks, not the claimed single chunk (the page is
dropped before the splitter is ever consulted). -/
theorem scenarioA_single_page_yields_no_chunk :
    loadAndChunk oneChunkSplitter "data/uscis_pdfs/I-485_instructions.pdf" "I-485"
      [{ content := scenarioAText.data, pageIndex := 0 }] = []
    ∧ ¬((loadAndChunk oneChunkSplitter "data/uscis_pdfs/I-485_instructions.pdf" "I-485"
      [{ content := scenarioAText.data, pageIndex := 0 }]).length = 1) := by
  exact ⟨by decide, by decide⟩

/-- C5: for every page of a document, if the page's cleaned text is shorter
than the 50-character threshold the chunker emits nothing for that page and
continues with the surrounding pages unchanged; a page at or above the
threshold contributes exactly its splitter output, tagged with the page's
metadata. -/
theorem short_page_dropped_long_page_split (splitter : List Char → List (List Char))
    (pdfPath fn : String) (pre : List Page) (p : Page) (post : List Page) :
    loadAndChunk splitter pdfPath fn (pre ++ p :: post)
      = loadAndChunk splitter pdfPath fn pre
        ++ (if (pyStrip (cleanUSCIS p.content)).length < 50 then []
            else (splitter (cleanUSCIS p.content)).map (mkChunkFor pdfPath fn p))
        ++ loadAndChunk splitter pdfPath fn post := by
  induction pre with
  | nil => simp [loadAndChunk]
  | cons q qs ih => simp [loadAndChunk, ih, List.append_assoc]

/-! ### Claim theorems: vector store and retrieval -/

theorem argmaxBy_mem {α : Type} (score : α → Int) :
    ∀ {l : List α} {m : α}, argmaxBy score l = some m → m ∈ l := by
  intro l
  induction l with
  | nil => intro m h; simp [argmaxBy] at h
  | cons d ds ih =>
    intro m h
    rcases hrec : argmaxBy score ds with _ | m2
    · simp only [argmaxBy, hrec] at h
      injection h with h
      exact h ▸ List.mem_cons_self d ds
    · simp only [argmaxBy, hrec] at h
      split at h
      · injection h with h
        exact h ▸ List.mem_cons_of_mem d (ih hrec)
      · injection h with h
        exact h ▸ List.mem_cons_self d ds

theorem takeTopBy_sub {α : Type} [DecidableEq α] (score : α → Int) :
    ∀ (n : Nat) (l : List α) {x : α}, x ∈ takeTopBy score n l → x ∈ l := by
  intro n
  induction n with
  | zero => intro l x h; simp [takeTopBy] at h
  | succ k ih =>
    intro l x h
    cases l with
    | nil => simp [takeTopBy] at h
    | cons d ds =>
      simp only [takeTopBy] at h
      rcases hrec : argmaxBy score (d :: ds) with _ | m
      · rw [hrec] at h
        simp at h
      · rw [hrec] at h
        rcases List.mem_cons.mp h with h1 | h1
        · subst h1
          exact argmaxBy_mem score hrec
        · exact List.erase_subset _ _ (ih _ h1)

theorem mmrSelect_sub (q : List Int) :
    ∀ (k : Nat) (sel cands : List IndexedDoc) {x : IndexedDoc},
      x ∈ mmrSelect q k sel cands → x ∈ cands := by
  intro k
  induction k with
  | zero => intro sel cands x h; simp [mmrSelect] at h
  | succ j ih =>
    intro sel cands x h
    simp only [mmrSelect] at h
    rcases hrec : argmaxBy (fun d => dot q d.embedding - maxSimTo d sel) cands with _ | m
    · rw [hrec] at h
      simp at h
    · rw [hrec] at h
      rcases List.mem_cons.mp h with h1 | h1
      · subst h1
        exact argmaxBy_mem _ hrec
      · exact List.erase_subset _ _ (ih _ _ h1)

/-- C6 (amended): for every retrieval through the MMR retriever with a
*nonempty* form-number filter `f`, every returned document has
`form_number = f`, whatever its similarity score.  (The nonemptiness
hypothesis is forced by the counterexample: `if form_filter:` is Python
truthiness, so the empty-string filter is silently treated as no filter.) -/
theorem filtered_search_matches_form (docs : List IndexedDoc) (embed : String → List Int)
    (query : String) (k : Nat) (f : String) (hf : f ≠ "") (d : IndexedDoc)
    (hd : d ∈ similaritySearchM docs embed query k (some f)) : d.form_number = f := by
  unfold similaritySearchM at hd
  have h1 := mmrSelect_sub _ _ _ _ hd
  have h2 := takeTopBy_sub _ _ _ h1
  have h3 := (List.mem_filter.mp h2).2
  simp only [passTruthyFilter] at h3
  rw [if_neg hf] at h3
  exact of_decide_eq_true h3

/-- Witness for C6: in an index holding an I-485 chunk and an I-130 chunk,
retrieval filtered on "I-130" returns the I-130 chunk, and the theorem
certifies its form number. -/
theorem filtered_search_matches_form_witness : doc130.form_number = "I-130" :=
  filtered_search_matches_form [doc485, doc130] embedOne "green card" 2 "I-130"
    (by decide) doc130 (by decide)

/-- C6 counterexample: with the empty-string filter (a legal `str` value for
`form_filter`), the filter is dropped by truthiness and an I-485 chunk is
returned even though its form number differs from the filter value. -/
theorem empty_filter_ignored :
    doc485 ∈ similaritySearchM [doc485] embedOne "green card" 1 (some "")
    ∧ doc485.form_number ≠ "" := by
  exact ⟨by decide, by decide⟩

theorem mmrSelect_nil (q : List Int) (k : Nat) (sel : List IndexedDoc) :
    mmrSelect q k sel [] = [] := by
  cases k with
  | zero => rfl
  | succ j => rfl

/-- C3 (amended): `load_index` never fails — there is no
`IndexNotFoundError` and no existence or embedding-dimension check in the
source.  When the persisted location does not exist (and nothing is cached
yet) it returns a freshly created, usable *empty* index: a handle whose
every similarity search returns the empty list without error. -/
theorem load_never_fails (m : Manager) (fs : FSState) :
    (loadIndex m fs).2 ≠ LoadResult.indexNotFound
    ∧ (m.vectorstore = none → fs.persisted = none →
        (loadIndex m fs).2 = LoadResult.ok { docs := [] }
        ∧ ∀ (embed : String → List Int) (query : String) (k : Nat) (ff : Option String),
            similaritySearchM (ChromaHandle.mk []).docs embed query k ff = []) := by
  constructor
  · unfold loadIndex getVectorstore
    cases m.vectorstore <;> simp
  · intro hm hfs
    constructor
    · unfold loadIndex getVectorstore
      rw [hm]
      unfold chromaConstruct
      rw [hfs]
      rfl
    · intro embed query k ff
      show mmrSelect (embed query) k []
        (takeTopBy (fun d => dot (embed query) d.embedding) 20
          (List.filter (passTruthyFilter ff) (ChromaHandle.mk []).docs)) = []
      rw [show List.filter (passTruthyFilter ff) (ChromaHandle.mk []).docs = [] from rfl]
      rw [show takeTopBy (fun d => dot (embed query) d.embedding) 20 ([] : List IndexedDoc)
          = [] from rfl]
      exact mmrSelect_nil _ _ _

/-- Witness for C3: the amended theorem applied to a fresh manager over a
missing persist location. -/
theorem load_never_fails_witness :
    (loadIndex { vectorstore := none } { persisted := none }).2
      = LoadResult.ok { docs := [] }
    ∧ similaritySearchM (ChromaHandle.mk []).docs embedOne "q" 4 none = [] :=
  ⟨((load_never_fails { vectorstore := none } { persisted := none }).2 rfl rfl).1,
   ((load_never_fails { vectorstore := none } { persisted := none }).2 rfl rfl).2
     embedOne "q" 4 none⟩

/-- C3 counterexample: loading with a missing persist location succeeds
with a usable empty index instead of failing with `IndexNotFoundError`. -/
theorem load_missing_location_returns_ok :
    (loadIndex { vectorstore := none } { persisted := none }).2
      = LoadResult.ok { docs := [] }
    ∧ (loadIndex { vectorstore := none } { persisted := none }).2
      ≠ LoadResult.indexNotFound := by
  exact ⟨rfl, by decide⟩

/-! ### Claim theorems: structured extraction -/

theorem retryFrom_attempts_le {A : Type} (action : Nat → Except SchemaParseError A)
    (wait : Nat → Nat) : ∀ (rem n : Nat), (retryFrom action wait n rem).attempts ≤ rem := by
  intro rem
  induction rem with
  | zero => intro n; simp [retryFrom]
  | succ j ih =>
    intro n
    cases j with
    | zero =>
      cases hact : action n with
      | ok a => simp [retryFrom, hact]
      | error e => simp [retryFrom, hact]
    | succ j2 =>
      cases hact : action n with
      | ok a => simp [retryFrom, hact]
      | error e =>
        simp only [retryFrom, hact]
        have hrec := ih (n + 1)
        omega

/-- C2: a classification request whose completion never parses performs
exactly 3 prompt→completion→parse attempts; the waits slept between
consecutive attempts are the exponential-backoff values 2s then 4s, each
within [2 s, 10 s]; the final outcome is the typed parse error of the third
attempt, carrying that attempt's raw completion text; the endpoint maps it
to HTTP 422 with the raw text in the detail; and no run of the wrapper —
whatever the outcomes — ever makes more than 3 attempts. -/
theorem classify_retry_three_attempts (err : Nat → SchemaParseError) (situation : String) :
    (runClassificationChain (alwaysFailAction err)).attempts = 3
    ∧ (runClassificationChain (alwaysFailAction err)).waits
        = [waitExp 1 2 10 1, waitExp 1 2 10 2]
    ∧ (runClassificationChain (alwaysFailAction err)).waits = [2, 4]
    ∧ ((runClassificationChain (alwaysFailAction err)).waits.all
        (fun w => decide (2 ≤ w) && decide (w ≤ 10))) = true
    ∧ (runClassificationChain (alwaysFailAction err)).outcome = Except.error (err 3)
    ∧ classifySituation (alwaysFailAction err) situation
        = ClassifyReply.httpError 422 (parseFailDetail ++ (err 3).raw)
    ∧ ∀ action : Nat → Except SchemaParseError RawAnalysis,
        (runClassificationChain action).attempts ≤ 3 := by
  refine ⟨rfl, rfl, rfl, rfl, rfl, rfl, ?_⟩
  intro action
  exact retryFrom_attempts_le action (waitExp 1 2 10) 3 1

/-- C7 (amended): every record accepted by the pydantic parse satisfies the
constraints the model actually declares — confidence within [0,1] and 1 to
5 entries in each of `applicable_forms` and `priority_steps` — and is
returned unchanged; the category field, however, is a bare string that is
NOT validated against the enumerated categories (see counterexample). -/
theorem parsed_analysis_bounds (a r : RawAnalysis) (h : parseAnalysis a = some r) :
    r = a
    ∧ 0 ≤ r.confidence ∧ r.confidence ≤ 1
    ∧ 1 ≤ r.applicable_forms.length ∧ r.applicable_forms.length ≤ 5
    ∧ 1 ≤ r.priority_steps.length ∧ r.priority_steps.length ≤ 5 := by
  unfold parseAnalysis at h
  split at h
  · next hv =>
    injection h with h
    subst h
    unfold validAnalysis at hv
    simp only [Bool.and_eq_true, decide_eq_true_eq] at hv
    exact ⟨rfl, hv.1.1.1.1.1, hv.1.1.1.1.2, hv.1.1.1.2, hv.1.1.2, hv.1.2, hv.2⟩
  · exact absurd h (by simp)

/-- Witness for C7: the amended theorem applied to a concrete record the
parser accepts. -/
theorem parsed_analysis_bounds_witness :
    parseAnalysis goodAnalysis = some goodAnalysis
    ∧ (goodAnalysis = goodAnalysis
       ∧ 0 ≤ goodAnalysis.confidence ∧ goodAnalysis.confidence ≤ 1
       ∧ 1 ≤ goodAnalysis.applicable_forms.length
       ∧ goodAnalysis.applicable_forms.length ≤ 5
       ∧ 1 ≤ goodAnalysis.priority_steps.length
       ∧ goodAnalysis.priority_steps.length ≤ 5) :=
  ⟨by decide, parsed_analysis_bounds goodAnalysis goodAnalysis (by decide)⟩

/-- C7 counterexample: a record whose category is far outside the stated
enum is accepted by the parse and returned unchanged — the category enum of
the claim lives only in the field's description text, not in validation. -/
theorem category_not_validated :
    parseAnalysis offEnumAnalysis = some offEnumAnalysis
    ∧ enumCategories.contains offEnumAnalysis.immigration_category = false := by
  exact ⟨by decide, by decide⟩

/-! ### Claim theorems: conversation memory -/

theorem lookupS_append_new : ∀ (st : SessionStore) (sid : String) (v : List Message),
    lookupS st sid = none → lookupS (st ++ [(sid, v)]) sid = some v := by
  intro st
  induction st with
  | nil =>
    intro sid v _
    simp [lookupS]
  | cons e rest ih =>
    intro sid v h
    obtain ⟨k, w⟩ := e
    by_cases hk : k = sid
    · simp [lookupS, hk] at h
    · simp only [List.cons_append, lookupS]
      rw [if_neg hk]
      simp only [lookupS] at h
      rw [if_neg hk] at h
      exact ih sid v h

theorem lookupS_append_other : ∀ (st : SessionStore) (sid x : String) (v : List Message),
    x ≠ sid → lookupS (st ++ [(sid, v)]) x = lookupS st x := by
  intro st
  induction st with
  | nil =>
    intro sid x v hx
    simp only [List.nil_append, lookupS]
    rw [if_neg fun h => hx h.symm]
  | cons e rest ih =>
    intro sid x v hx
    obtain ⟨k, w⟩ := e
    simp only [List.cons_append, lookupS]
    by_cases hk : k = x
    · rw [if_pos hk, if_pos hk]
    · rw [if_neg hk, if_neg hk]
      exact ih sid x v hx

theorem lookupS_updateS_self : ∀ (st : SessionStore) (sid : String) (m w : List Message),
    lookupS st sid = some w → lookupS (updateS st sid m) sid = some m := by
  intro st
  induction st with
  | nil =>
    intro sid m w h
    simp [lookupS] at h
  | cons e rest ih =>
    intro sid m w h
    obtain ⟨k, v⟩ := e
    by_cases hk : k = sid
    · simp only [updateS]
      rw [if_pos hk]
      simp only [lookupS]
      rw [if_pos hk]
    · simp only [updateS]
      rw [if_neg hk]
      simp only [lookupS]
      rw [if_neg hk]
      simp only [lookupS] at h
      rw [if_neg hk] at h
      exact ih sid m w h

theorem lookupS_updateS_other : ∀ (st : SessionStore) (sid x : String) (m : List Message),
    x ≠ sid → lookupS (updateS st sid m) x = lookupS st x := by
  intro st
  induction st with
  | nil => intro sid x m _; rfl
  | cons e rest ih =>
    intro sid x m hx
    obtain ⟨k, v⟩ := e
    by_cases hk : k = sid
    · simp only [updateS]
      rw [if_pos hk]
      simp only [lookupS]
      have hkx : ¬(k = x) := by
        rw [hk]
        exact fun h => hx h.symm
      rw [if_neg hkx, if_neg hkx]
      exact ih sid x m hx
    · simp only [updateS]
      rw [if_neg hk]
      simp only [lookupS]
      by_cases hkx : k = x
      · rw [if_pos hkx, if_pos hkx]
      · rw [if_neg hkx, if_neg hkx]
        exact ih sid x m hx

theorem lookupS_removeS_self : ∀ (st : SessionStore) (sid : String),
    lookupS (removeS st sid) sid = none := by
  intro st
  induction st with
  | nil => intro sid; rfl
  | cons e rest ih =>
    intro sid
    obtain ⟨k, v⟩ := e
    by_cases hk : k = sid
    · simp only [removeS]
      rw [if_pos hk]
      exact ih sid
    · simp only [removeS]
      rw [if_neg hk]
      simp only [lookupS]
      rw [if_neg hk]
      exact ih sid

theorem lookupS_removeS_other : ∀ (st : SessionStore) (sid x : String), x ≠ sid →
    lookupS (removeS st sid) x = lookupS st x := by
  intro st
  induction st with
  | nil => intro sid x _; rfl
  | cons e rest ih =>
    intro sid x hx
    obtain ⟨k, v⟩ := e
    by_cases hk : k = sid
    · simp only [removeS]
      rw [if_pos hk]
      simp only [lookupS]
      have hkx : ¬(k = x) := by
        rw [hk]
        exact fun h => hx h.symm
      rw [if_neg hkx]
      exact ih sid x hx
    · simp only [removeS]
      rw [if_neg hk]
      simp only [lookupS]
      by_cases hkx : k = x
      · rw [if_pos hkx, if_pos hkx]
      · rw [if_neg hkx, if_neg hkx]
        exact ih sid x hx

theorem chatTurn_hist (llm : List Message → String → String) (st : SessionStore)
    (sid msg : String) :
    histOrEmpty (chatTurn llm st sid msg).1 sid
      = histOrEmpty st sid
        ++ [{ role := Role.human, content := msg },
            { role := Role.assistant, content := llm (histOrEmpty st sid) msg }] := by
  unfold chatTurn getOrCreate histOrEmpty
  rcases hl : lookupS st sid with _ | h
  · simp only [hl]
    have h1 : lookupS (st ++ [(sid, [])]) sid = some [] := lookupS_append_new st sid [] hl
    rw [lookupS_updateS_self _ _ _ _ h1]
    simp
  · simp only [hl]
    rw [lookupS_updateS_self _ _ _ _ hl]
    simp

theorem chatTurn_other (llm : List Message → String → String) (st : SessionStore)
    (sid msg x : String) (hx : x ≠ sid) :
    lookupS (chatTurn llm st sid msg).1 x = lookupS st x := by
  unfold chatTurn getOrCreate
  rcases hl : lookupS st sid with _ | h
  · simp only [hl]
    rw [lookupS_updateS_other _ _ _ _ hx, lookupS_append_other _ _ _ _ hx]
  · simp only [hl]
    rw [lookupS_updateS_other _ _ _ _ hx]

theorem evenStore_applyOp (llm : List Message → String → String) (st : SessionStore)
    (h : ∀ sid, (histOrEmpty st sid).length % 2 = 0) (op : ChatOp) :
    ∀ x, (histOrEmpty (applyOp llm st op) x).length % 2 = 0 := by
  intro x
  cases op with
  | turn sid msg =>
    by_cases hx : x = sid
    · subst hx
      rw [show applyOp llm st (ChatOp.turn x msg) = (chatTurn llm st x msg).1 from rfl]
      rw [chatTurn_hist]
      rw [List.length_append]
      simp only [List.length_cons, List.length_nil]
      have := h x
      omega
    · rw [show applyOp llm st (ChatOp.turn sid msg) = (chatTurn llm st sid msg).1 from rfl]
      unfold histOrEmpty
      rw [chatTurn_other llm st sid msg x hx]
      exact h x
  | clearOp sid =>
    by_cases hx : x = sid
    · subst hx
      unfold applyOp histOrEmpty
      rw [lookupS_removeS_self]
      simp
    · unfold applyOp histOrEmpty
      rw [lookupS_removeS_other _ _ _ hx]
      exact h x

theorem evenStore_runOps (llm : List Message → String → String) :
    ∀ (ops : List ChatOp) (st : SessionStore),
      (∀ sid, (histOrEmpty st sid).length % 2 = 0) →
      ∀ sid, (histOrEmpty (runOps llm st ops) sid).length % 2 = 0 := by
  intro ops
  induction ops with
  | nil => intro st h sid; exact h sid
  | cons op ops ih =>
    intro st h sid
    exact ih _ (evenStore_applyOp llm st h op) sid

/-- C8: a completed chat turn appends to its session's history exactly the
two messages of the exchange — the human message, then the assistant
message produced from the prior history — and consequently, starting from
the empty session store, after any sequence of completed turns and clears
every session's message count is even. -/
theorem chat_turn_appends_two (llm : List Message → String → String) :
    (∀ (st : SessionStore) (sid msg : String),
      histOrEmpty (chatTurn llm st sid msg).1 sid
        = histOrEmpty st sid
          ++ [{ role := Role.human, content := msg },
              { role := Role.assistant, content := llm (histOrEmpty st sid) msg }])
    ∧ ∀ (ops : List ChatOp) (sid : String),
        (histOrEmpty (runOps llm [] ops) sid).length % 2 = 0 := by
  refine ⟨chatTurn_hist llm, ?_⟩
  intro ops sid
  exact evenStore_runOps llm ops [] (fun s => by simp [histOrEmpty, lookupS]) sid

/-- With Python dict semantics, the unknown id "messages" collides with
the literal "messages" key of the response: the later entry overwrites the
earlier one in place, so the response is the one-field object whose only
field is the empty message list — no id-valued field survives. -/
theorem history_messages_collision :
    getHistoryEndpoint [] "messages" = [("messages", JVal.arr [])] := rfl

/-- C10 (amended): for every *unknown* session id other than the literal
strings "session_id" and "messages", the history endpoint's response is
exactly the two-field object whose first key is the id value mapped to the
id value and whose "messages" field is the empty list; in particular it
has no field named "session_id".  (The "session_id" exception is forced by
the counterexample — for that id the id-valued key itself is named
"session_id" — and the "messages" exception by dict key collision: for
that id the later `"messages": []` entry overwrites the id-valued entry,
leaving a one-field object with no id-valued field.) -/
theorem history_unknown_session_shape (st : SessionStore) (sid : String)
    (h1 : lookupS st sid = none) (h2 : sid ≠ "session_id") (h3 : sid ≠ "messages") :
    getHistoryEndpoint st sid = [(sid, JVal.s sid), ("messages", JVal.arr [])]
    ∧ ¬("session_id" ∈ (getHistoryEndpoint st sid).map Prod.fst) := by
  have hshape : getHistoryEndpoint st sid
      = [(sid, JVal.s sid), ("messages", JVal.arr [])] := by
    unfold getHistoryEndpoint
    rw [h1]
    simp [mkDict, dictInsert, hasKey, h3]
  refine ⟨hshape, ?_⟩
  rw [hshape]
  intro hmem
  simp only [List.map_cons, List.map_nil, List.mem_cons, List.not_mem_nil, or_false] at hmem
  rcases hmem with h | h
  · exact h2 h.symm
  · exact absurd h (by decide)

/-- Witness for C10: the amended theorem applied to a concrete unknown id
distinct from both reserved key strings. -/
theorem history_unknown_session_shape_witness :
    lookupS ([] : SessionStore) "abc" = none
    ∧ getHistoryEndpoint [] "abc" = [("abc", JVal.s "abc"), ("messages", JVal.arr [])]
    ∧ ¬("session_id" ∈ (getHistoryEndpoint [] "abc").map Prod.fst) :=
  ⟨rfl, (history_unknown_session_shape [] "abc" rfl (by decide) (by decide)).1,
    (history_unknown_session_shape [] "abc" rfl (by decide) (by decide)).2⟩

/-- C10 counterexample: for the unknown session id "session_id" the
response *does* contain a field named "session_id" — the id-valued key
collides with the field name the claim says is absent — refuting the
claim's universally quantified "contains no field named session_id". -/
theorem history_unknown_session_id_shadow :
    lookupS ([] : SessionStore) "session_id" = none
    ∧ "session_id" ∈ (getHistoryEndpoint [] "session_id").map Prod.fst := by
  exact ⟨rfl, by decide⟩
